import Mathlib

/-!
Verification of the posting-list algebra (`in3120/postingsmerger.py`) and the
N-of-M threshold evaluator (`in3120/simplesearchengine.py`).

Posting lists are embedded as Lean lists of `Posting` records; the Python
generators walk their two input iterators left to right, so a generator over an
iterator of a list is embedded as a recursive function over that list.  A
Python exception escaping a generator is embedded as `Except.error` carrying
the exception kind.
-/

/-- A posting: one term's occurrence statistic in one document.
Mirrors `Posting(document_id, term_frequency)` with both fields
non-negative integers. -/
structure Posting where
  document_id : Nat
  term_frequency : Nat
deriving DecidableEq, Repr

/-- Python exception kinds that the embedded code can raise. -/
inductive PyError where
  | indexError
  | attributeError
  | runtimeError
deriving DecidableEq, Repr

/-- The document ids of a posting list. -/
def ids (l : List Posting) : List Nat :=
  l.map (·.document_id)

/-- Total term frequency recorded for document `d` in posting list `l`.
On an id-deduplicated list this is the unique frequency of `d` (0 if absent). -/
def tfOf : List Posting → Nat → Nat
  | [], _ => 0
  | p :: l, d => (if p.document_id = d then p.term_frequency else 0) + tfOf l d

/-- A posting list sorted in strictly increasing document-id order
(hence with no duplicate ids): the invariant the index guarantees. -/
def SortedIds (l : List Posting) : Prop :=
  l.Pairwise (fun p q => p.document_id < q.document_id)

/-- Embedding of `PostingsMerger.intersection`.  The Python generator first
pulls a head from each iterator (returning at once if either is empty — the
second one is tried first), then walks: equal head ids combine
(`a.term_frequency += b.term_frequency; yield a`, i.e. the yielded value
carries the summed frequency) and both advance; otherwise the smaller head is
discarded and its side advances; it stops when either side is exhausted. -/
def intersection : List Posting → List Posting → List Posting
  | _, [] => []
  | [], _ :: _ => []
  | a :: as, b :: bs =>
    if a.document_id = b.document_id then
      ⟨a.document_id, a.term_frequency + b.term_frequency⟩ :: intersection as bs
    else if a.document_id < b.document_id then
      intersection as (b :: bs)
    else
      intersection (a :: as) bs
termination_by A B => A.length + B.length
decreasing_by all_goals simp_arith

/-- Embedding of `PostingsMerger.union`.  Empty second input: the first passes
through verbatim (and symmetrically).  Otherwise walk: smaller head is emitted
unchanged and its side advances; equal heads combine
(`a.term_frequency += b.term_frequency; yield a`) and both advance; when a side
is exhausted mid-walk the held head and remainder of the other side pass
through verbatim. -/
def union : List Posting → List Posting → List Posting
  | as, [] => as
  | [], b :: bs => b :: bs
  | a :: as, b :: bs =>
    if a.document_id < b.document_id then
      a :: union as (b :: bs)
    else if b.document_id < a.document_id then
      b :: union (a :: as) bs
    else
      ⟨a.document_id, a.term_frequency + b.term_frequency⟩ :: union as bs
termination_by A B => A.length + B.length
decreasing_by all_goals simp_arith

/-- Embedding of the body of `PostingsMerger.difference` once the first head
`b` of the second input has been pulled: the outer `for a in iter1` loop with
current head `b` and remaining tail `bs` of the second input.

The inner `while a.document_id > b.document_id` loop advances `b`; if the
second input is exhausted there, the guarded re-check yields `a` and the rest
of the first input verbatim.  On `a.document_id == b.document_id` the source
calls `next(iter2)` WITHOUT a guard (line 161): if the second input is
exhausted at that point, the `StopIteration` escapes inside the generator body
and Python (PEP 479) turns it into a `RuntimeError`. -/
def diffRun : List Posting → Posting → List Posting → Except PyError (List Posting)
  | [], _, _ => .ok []
  | a :: as, b, bs =>
    if b.document_id < a.document_id then
      match bs with
      | [] => .ok (a :: as)
      | b' :: bs' => diffRun (a :: as) b' bs'
    else if a.document_id = b.document_id then
      match bs with
      | [] => .error .runtimeError
      | b' :: bs' => diffRun as b' bs'
    else
      match diffRun as b bs with
      | .ok r => .ok (a :: r)
      | .error e => .error e
termination_by A b bs => A.length + bs.length
decreasing_by all_goals simp_arith

/-- Embedding of `PostingsMerger.difference`: if the second input is
immediately empty the first passes through verbatim, otherwise `diffRun`
performs the walk. -/
def difference (A B : List Posting) : Except PyError (List Posting) :=
  match B with
  | [] => .ok A
  | b :: bs => diffRun A b bs

/-- State-instrumented embedding of `PostingsMerger.intersection`: the first
component is the yielded sequence, the second the contents of the first
input's posting objects after the run.  At equal head ids the source executes
`a.term_frequency += b.term_frequency` and then `yield a`: the object consumed
from the first input itself now stores the summed frequency (it is the very
object yielded, not a fresh posting); no field of the second input's postings
is ever written, and postings the walk merely discards or passes over are left
as they were. -/
def intersectionSt : List Posting → List Posting → List Posting × List Posting
  | as, [] => ([], as)
  | [], _ :: _ => ([], [])
  | a :: as, b :: bs =>
    if a.document_id = b.document_id then
      let m : Posting := ⟨a.document_id, a.term_frequency + b.term_frequency⟩
      let r := intersectionSt as bs
      (m :: r.1, m :: r.2)
    else if a.document_id < b.document_id then
      let r := intersectionSt as (b :: bs)
      (r.1, a :: r.2)
    else
      intersectionSt (a :: as) bs
termination_by A B => A.length + B.length
decreasing_by all_goals simp_arith

/-- State-instrumented embedding of `PostingsMerger.union`, with the same
reading as `intersectionSt`: first component the yielded sequence, second the
post-run contents of the first input (mutated in place at equal head ids by
`a.term_frequency += b.term_frequency`). -/
def unionSt : List Posting → List Posting → List Posting × List Posting
  | as, [] => (as, as)
  | [], b :: bs => (b :: bs, [])
  | a :: as, b :: bs =>
    if a.document_id < b.document_id then
      let r := unionSt as (b :: bs)
      (a :: r.1, a :: r.2)
    else if b.document_id < a.document_id then
      let r := unionSt (a :: as) bs
      (b :: r.1, r.2)
    else
      let m : Posting := ⟨a.document_id, a.term_frequency + b.term_frequency⟩
      let r := unionSt as bs
      (m :: r.1, m :: r.2)
termination_by A B => A.length + B.length
decreasing_by all_goals simp_arith

/-- Python `int()` applied to a number truncates toward zero.  The source
computes `match_count = int(len(query_terms) * match_threshold)`; the float
option value is embedded as a rational. -/
def pyInt (q : ℚ) : ℤ :=
  if 0 ≤ q then ⌊q⌋ else ⌈q⌉

/-- First-occurrence deduplication, accumulating the elements already seen:
the iteration order of a Python `dict`/`Counter` over its keys. -/
def dedupKeepFirst [DecidableEq α] (seen : List α) : List α → List α
  | [] => []
  | t :: ts => if t ∈ seen then dedupKeepFirst seen ts else t :: dedupKeepFirst (t :: seen) ts

/-- Modelled from the spec: `InvertedIndex.get_terms` (invertedindex.py is not
under src/) yields "the ordered sequence of unique normalized terms" of the
query (spec, External Interfaces), i.e. the query's tokens with duplicates
collapsed, first occurrence kept.  Normalization itself is out of scope, so a
query is taken as its token list. -/
def uniqueTerms (tokens : List String) : List String :=
  dedupKeepFirst [] tokens

/-- Lines 53-54 of simplesearchengine.py composed with the spec-modelled
`get_terms`: the number of terms that must match, `int(M * T)` for `M` the
number of unique query terms. -/
def matchCountOf (tokens : List String) (t : ℚ) : ℤ :=
  pyInt (((uniqueTerms tokens).length : ℚ) * t)

/-- Embedding of `Counter(ids).most_common(1)[0]` for a nonempty id list: the
`(document_id, count)` pair with maximal count.  `Counter` iterates its keys in
first-insertion order and `most_common` sorts stably by descending count, so a
tie goes to the earliest first occurrence. -/
def mostCommon1 (l : List Nat) : Nat × Nat :=
  let u := dedupKeepFirst [] l
  let best := u.foldl (fun b d => if l.count d > l.count b then d else b) (u.headD 0)
  (best, l.count best)

/-- Python `==` between a tuple and an int: values of unrelated types with no
cross-type equality defined always compare unequal (no exception is raised).
This is the qualification test `if most_common == match_count:` of
simplesearchengine.py line 71, which compares the `(document_id, count)` pair
against the integer match count — it never holds. -/
def pyEqPairInt (_u : Nat × Nat) (_n : Int) : Bool :=
  false

/-- Embedding of
`postings.index(min(postings, key=lambda x: x.document_id))`: Python's `min`
returns the first posting attaining the minimal document id, and `index` then
finds that same first position again. -/
def idxOfMinDid (l : List Posting) : Nat :=
  l.findIdx fun p => l.all fun q => p.document_id ≤ q.document_id

theorem exists_min_did (l : List Posting) (h : l ≠ []) :
    ∃ p ∈ l, ∀ q ∈ l, p.document_id ≤ q.document_id := by
  induction l with
  | nil => exact absurd rfl h
  | cons a as ih =>
    rcases as.eq_nil_or_concat with rfl | _
    · exact ⟨a, List.mem_singleton_self a, by simp⟩
    · obtain ⟨p, hp, hmin⟩ := ih (by rintro rfl; simp_all)
      by_cases hle : a.document_id ≤ p.document_id
      · refine ⟨a, List.mem_cons_self a as, ?_⟩
        intro q hq
        rcases List.mem_cons.mp hq with rfl | h'
        · exact le_refl _
        · exact hle.trans (hmin q h')
      · refine ⟨p, List.mem_cons_of_mem a hp, ?_⟩
        intro q hq
        rcases List.mem_cons.mp hq with rfl | h'
        · exact (not_le.mp hle).le
        · exact hmin q h'

theorem idxOfMinDid_lt_length (l : List Posting) (h : l ≠ []) :
    idxOfMinDid l < l.length := by
  apply List.findIdx_lt_length_of_exists
  obtain ⟨p, hp, hmin⟩ := exists_min_did l h
  exact ⟨p, hp, by simpa [List.all_eq_true] using hmin⟩

theorem sum_map_length_set (l : List (List Posting)) (p : Nat) (h : Posting)
    (t : List Posting) (hl : l.getD p [] = h :: t) :
    ((l.set p t).map List.length).sum + 1 = (l.map List.length).sum := by
  induction l generalizing p with
  | nil => simp [List.getD] at hl
  | cons x xs ih =>
    cases p with
    | zero =>
      simp only [List.getD, List.get?_cons_zero, Option.getD_some] at hl
      subst hl
      simp [List.set]
      omega
    | succ n =>
      have := ih n (by simpa [List.getD] using hl)
      simp only [List.set, List.map_cons, List.sum_cons]
      omega

/-- Modelled from the spec: the bounded top-K selection structure
(sieve.py is not under src/).  `Sieve(hit_count)` starts out holding no
candidates; `sift(score, document_id)` would record one. -/
structure Sieve where
  hit_count : Int
  retained : List (Rat × Nat)
deriving DecidableEq, Repr

/-- `Sieve(hit_count)`: a freshly constructed, empty sieve. -/
def Sieve.empty (k : Int) : Sieve :=
  ⟨k, []⟩

/-- Descending-score insertion used to model `winners()`. -/
def insertByScoreDesc (x : Rat × Nat) : List (Rat × Nat) → List (Rat × Nat)
  | [] => [x]
  | y :: ys => if y.1 ≤ x.1 then x :: y :: ys else y :: insertByScoreDesc x ys

/-- Modelled from the spec: `winners()` yields the retained entries in
descending score order. -/
def Sieve.winners (s : Sieve) : List (Rat × Nat) :=
  s.retained.foldr insertByScoreDesc []

/-- Modelled from the spec: `Corpus.get_document` (corpus.py is not under
src/) resolves a document id to its Document; a Document is represented here
by its id. -/
def getDocument (d : Nat) : Nat :=
  d

/-- One record of the result stream: `{"score": ..., "document": ...}`. -/
structure SearchHit where
  score : Rat
  document : Nat
deriving DecidableEq, Repr

/-- Embedding of the scan loop `while len(postings) >= match_count:` of
`SimpleSearchEngine.evaluate` (lines 68-99).  `iters` holds the unread
remainder of each term's posting sequence (a fixed-length list, one entry per
query term), `postings` the current heads.  One iteration:

* `Counter(...).most_common(1)[0]` — on an empty `postings` the `[0]` raises
  `IndexError`;
* the qualification test `if most_common == match_count:` compares a
  `(document_id, count)` tuple with an int (`pyEqPairInt`); were it ever to
  hold, the branch body's first statement
  `ranker.reset(most_common.document_id)` would raise `AttributeError`,
  since a tuple has no `document_id` attribute — everything after it
  (`ranker.update`, `sieve.sift`, cursor advancement) is unreachable;
* otherwise the posting with minimal document id is replaced by the next
  posting of the iterator at the *same position index* — note that `postings`
  has had exhausted entries removed while `iters` keeps its original indexing,
  exactly as in the source, where `postings.index(...)` is used to subscript
  `iterators`;
* an exhausted replacement (`None`) is removed from `postings`.

The sieve is not an argument: no reachable statement of the loop body touches
it. -/
def loop (iters : List (List Posting)) (postings : List Posting) (mc : Int) :
    Except PyError Unit :=
  if (postings.length : Int) ≥ mc then
    if hemp : postings = [] then
      .error .indexError
    else
      if pyEqPairInt (mostCommon1 (ids postings)) mc then
        .error .attributeError
      else
        match hit : iters.getD (idxOfMinDid postings) [] with
        | h :: t =>
          loop (iters.set (idxOfMinDid postings) t)
            (postings.set (idxOfMinDid postings) h) mc
        | [] => loop iters (postings.eraseIdx (idxOfMinDid postings)) mc
  else
    .ok ()
termination_by (iters.map List.length).sum + postings.length
decreasing_by
  · have h1 := sum_map_length_set iters (idxOfMinDid postings) _ _ hit
    have h2 := List.length_set postings (idxOfMinDid postings) h
    omega
  · have h1 := idxOfMinDid_lt_length postings hemp
    have h2 := List.length_eraseIdx postings (idxOfMinDid postings)
    rw [if_pos h1] at h2
    omega

/-- Embedding of `SimpleSearchEngine.evaluate` (simplesearchengine.py lines
37-102), taking the posting list of each query term (the spec-modelled
`get_terms` / `get_postings_iterator` supply one sorted sequence per unique
term, empty for an unknown term), the `match_threshold` option embedded as a
rational and the `hit_count` option.  Mirroring the source:

* `match_count = int(len(query_terms) * match_threshold)` — no validation of
  either option is performed anywhere;
* `sieve = Sieve(hit_count)`;
* one posting is pulled from every iterator (`next(iterator, None)`), and
  `None` entries are removed from `postings` — but not from `iterators`,
  whose indexing stays that of the full term list;
* the scan loop runs (`loop`);
* finally `sieve.winners()` is yielded as `{"score", "document"}` records. -/
def evaluate (termLists : List (List Posting)) (matchThreshold : Rat)
    (hitCount : Int) : Except PyError (List SearchHit) :=
  let matchCount : Int := pyInt ((termLists.length : Rat) * matchThreshold)
  let sieve := Sieve.empty hitCount
  let iters := termLists.map List.tail
  let postings := termLists.filterMap List.head?
  match loop iters postings matchCount with
  | .error e => .error e
  | .ok () => .ok (sieve.winners.map fun w => ⟨w.1, getDocument w.2⟩)

/-- `loop` exits normally as soon as fewer live cursors remain than the match
count requires. -/
theorem loop_exit (iters : List (List Posting)) (postings : List Posting)
    (mc : Int) (hge : ¬ (postings.length : Int) ≥ mc) :
    loop iters postings mc = .ok () := by
  rw [loop, if_neg hge]

/-- `loop` on empty `postings` with a still-true guard: the `[0]` subscript on
`Counter(...).most_common(1)` raises `IndexError`. -/
theorem loop_empty (iters : List (List Posting)) (mc : Int)
    (hge : (0 : Int) ≥ mc) :
    loop iters [] mc = .error .indexError := by
  rw [loop]
  simp only [List.length_nil, Nat.cast_zero, hge, if_true, ge_iff_le, dite_true]

/-- One advancing iteration of `loop` whose minimal cursor still has unread
postings. -/
theorem loop_adv_cons (iters : List (List Posting)) (postings : List Posting)
    (mc : Int) (h : Posting) (t : List Posting)
    (hge : (postings.length : Int) ≥ mc) (hemp : postings ≠ [])
    (hit : iters.getD (idxOfMinDid postings) [] = h :: t) :
    loop iters postings mc =
      loop (iters.set (idxOfMinDid postings) t)
        (postings.set (idxOfMinDid postings) h) mc := by
  rw [loop, if_pos hge, dif_neg hemp]
  simp only [pyEqPairInt, Bool.false_eq_true, if_false]
  split
  · next h' t' heq =>
      rw [hit] at heq
      cases heq
      rfl
  · next heq => rw [hit] at heq; cases heq

/-- One iteration of `loop` whose minimal cursor is exhausted: its posting is
removed. -/
theorem loop_adv_nil (iters : List (List Posting)) (postings : List Posting)
    (mc : Int) (hge : (postings.length : Int) ≥ mc) (hemp : postings ≠ [])
    (hit : iters.getD (idxOfMinDid postings) [] = []) :
    loop iters postings mc =
      loop iters (postings.eraseIdx (idxOfMinDid postings)) mc := by
  rw [loop, if_pos hge, dif_neg hemp]
  simp only [pyEqPairInt, Bool.false_eq_true, if_false]
  split
  · next h' t' heq => rw [hit] at heq; cases heq
  · next heq => rfl

instance {e a : Type} [DecidableEq e] [DecidableEq a] : DecidableEq (Except e a) := fun x y =>
  match x, y with
  | .error u, .error v =>
    if h : u = v then isTrue (by rw [h]) else isFalse (by intro hh; cases hh; exact h rfl)
  | .ok u, .ok v =>
    if h : u = v then isTrue (by rw [h]) else isFalse (by intro hh; cases hh; exact h rfl)
  | .error _, .ok _ => isFalse (by intro hh; cases hh)
  | .ok _, .error _ => isFalse (by intro hh; cases hh)

/-- Fuel-indexed executable twin of `loop`, used to compute concrete runs by
kernel reduction; `none` means the fuel ran out. -/
def loopEx (fuel : Nat) (iters : List (List Posting)) (postings : List Posting)
    (mc : Int) : Option (Except PyError Unit) :=
  match fuel with
  | 0 => none
  | fuel + 1 =>
    if (postings.length : Int) ≥ mc then
      if postings = [] then
        some (.error .indexError)
      else
        match iters.getD (idxOfMinDid postings) [] with
        | h :: t =>
          loopEx fuel (iters.set (idxOfMinDid postings) t)
            (postings.set (idxOfMinDid postings) h) mc
        | [] => loopEx fuel iters (postings.eraseIdx (idxOfMinDid postings)) mc
    else
      some (.ok ())

theorem loopEx_sound (fuel : Nat) (iters : List (List Posting))
    (postings : List Posting) (mc : Int) (r : Except PyError Unit)
    (h : loopEx fuel iters postings mc = some r) :
    loop iters postings mc = r := by
  induction fuel generalizing iters postings with
  | zero => simp [loopEx] at h
  | succ fuel ih =>
    rw [loopEx] at h
    by_cases hge : (postings.length : Int) ≥ mc
    · rw [if_pos hge] at h
      by_cases hemp : postings = []
      · subst hemp
        simp only [if_pos rfl, if_true, eq_self_iff_true, Option.some_inj] at h
        subst h
        exact loop_empty iters mc (by simpa using hge)
      · rw [if_neg hemp] at h
        split at h
        · next x xs hit =>
            exact (loop_adv_cons iters postings mc x xs hge hemp hit).trans
              (ih _ _ h)
        · next hit =>
            exact (loop_adv_nil iters postings mc hge hemp hit).trans (ih _ _ h)
    · rw [if_neg hge] at h
      simp only [Option.some_inj] at h
      subst h
      exact loop_exit iters postings mc hge

/-- Reduction of `evaluate` to its scan loop: since the sieve is never sifted,
a normally terminating evaluation yields the empty result stream. -/
theorem evaluate_eq (tl : List (List Posting)) (T : Rat) (K : Int) :
    evaluate tl T K =
      match loop (tl.map List.tail) (tl.filterMap List.head?)
          (pyInt ((tl.length : Rat) * T)) with
      | .error e => .error e
      | .ok () => .ok [] :=
  rfl

theorem tfOf_eq_zero {l : List Posting} {d : Nat} (h : ∀ q ∈ l, q.document_id ≠ d) :
    tfOf l d = 0 := by
  induction l with
  | nil => rfl
  | cons p ps ih =>
    simp only [tfOf]
    rw [if_neg (h p (List.mem_cons_self p ps)), ih fun q hq => h q (List.mem_cons_of_mem p hq)]

theorem ids_cons (p : Posting) (l : List Posting) :
    ids (p :: l) = p.document_id :: ids l := rfl

theorem sorted_head_lt {b : Posting} {bs : List Posting} (hB : SortedIds (b :: bs))
    {d : Nat} (hd : d ∈ ids (b :: bs)) : b.document_id ≤ d := by
  rw [ids_cons] at hd
  rcases List.mem_cons.mp hd with rfl | hd'
  · exact le_refl _
  · obtain ⟨q, hq, rfl⟩ := List.mem_map.mp hd'
    exact ((List.pairwise_cons.mp hB).1 q hq).le

theorem tfOf_self {A : List Posting} (hA : SortedIds A) {a : Posting} (ha : a ∈ A) :
    tfOf A a.document_id = a.term_frequency := by
  induction A with
  | nil => cases ha
  | cons p ps ih =>
    obtain ⟨hp, hps⟩ := List.pairwise_cons.mp hA
    rcases List.mem_cons.mp ha with rfl | ha'
    · simp only [tfOf, eq_self_iff_true, if_true]
      rw [tfOf_eq_zero fun q hq => ((hp q hq).ne'), Nat.add_zero]
    · simp only [tfOf]
      rw [if_neg (hp a ha').ne, ih hps ha', Nat.zero_add]

theorem union_nil (A : List Posting) : union A [] = A := by
  simp [union]

theorem nil_union (B : List Posting) : union [] B = B := by
  cases B <;> simp [union]

theorem union_mem_ids (A B : List Posting) (d : Nat) :
    d ∈ ids (union A B) ↔ d ∈ ids A ∨ d ∈ ids B := by
  induction A, B using union.induct with
  | case1 as => simp [union_nil, ids]
  | case2 b bs => simp [nil_union, ids]
  | case3 a as b bs hlt ih =>
    simp only [union, if_pos hlt, ids_cons, List.mem_cons, ih]
    tauto
  | case4 a as b bs hnlt hlt ih =>
    simp only [union, if_neg hnlt, if_pos hlt, ids_cons, List.mem_cons, ih]
    tauto
  | case5 a as b bs hnlt hnlt' ih =>
    have heq : a.document_id = b.document_id := by omega
    simp only [union, if_neg hnlt, if_neg hnlt', ids_cons, List.mem_cons, ih]
    rw [heq]
    tauto

theorem union_elem_ids {A B : List Posting} {p : Posting} (hp : p ∈ union A B) :
    p.document_id ∈ ids A ∨ p.document_id ∈ ids B :=
  (union_mem_ids A B p.document_id).mp (List.mem_map_of_mem _ hp)

theorem union_sorted (A B : List Posting) (hA : SortedIds A) (hB : SortedIds B) :
    SortedIds (union A B) := by
  revert hA hB
  induction A, B using union.induct with
  | case1 as => intro hA _; rwa [union_nil]
  | case2 b bs => intro _ hB; rwa [nil_union]
  | case3 a as b bs hlt ih =>
    intro hA hB
    obtain ⟨haA, hA'⟩ := List.pairwise_cons.mp hA
    simp only [union, if_pos hlt]
    refine List.pairwise_cons.mpr ⟨?_, ih hA' hB⟩
    intro q hq
    rcases union_elem_ids hq with h | h
    · obtain ⟨r, hr, hrq⟩ := List.mem_map.mp h
      exact hrq ▸ haA r hr
    · exact lt_of_lt_of_le hlt (sorted_head_lt hB h)
  | case4 a as b bs hnlt hlt ih =>
    intro hA hB
    obtain ⟨hbB, hB'⟩ := List.pairwise_cons.mp hB
    simp only [union, if_neg hnlt, if_pos hlt]
    refine List.pairwise_cons.mpr ⟨?_, ih hA hB'⟩
    intro q hq
    rcases union_elem_ids hq with h | h
    · exact lt_of_lt_of_le hlt (sorted_head_lt hA h)
    · obtain ⟨r, hr, hrq⟩ := List.mem_map.mp h
      exact hrq ▸ hbB r hr
  | case5 a as b bs hnlt hnlt' ih =>
    intro hA hB
    obtain ⟨haA, hA'⟩ := List.pairwise_cons.mp hA
    obtain ⟨hbB, hB'⟩ := List.pairwise_cons.mp hB
    have heq : a.document_id = b.document_id := by omega
    simp only [union, if_neg hnlt, if_neg hnlt']
    refine List.pairwise_cons.mpr ⟨?_, ih hA' hB'⟩
    intro q hq
    rcases union_elem_ids hq with h | h
    · obtain ⟨r, hr, hrq⟩ := List.mem_map.mp h
      exact hrq ▸ haA r hr
    · obtain ⟨r, hr, hrq⟩ := List.mem_map.mp h
      exact heq ▸ hrq ▸ hbB r hr

theorem tfOf_cons_ne {p : Posting} {l : List Posting} {d : Nat}
    (h : p.document_id ≠ d) : tfOf (p :: l) d = tfOf l d := by
  simp [tfOf, h]

theorem tfOf_cons_self {p : Posting} {l : List Posting}
    (h : ∀ q ∈ l, p.document_id < q.document_id) :
    tfOf (p :: l) p.document_id = p.term_frequency := by
  simp only [tfOf, eq_self_iff_true, if_true]
  rw [tfOf_eq_zero fun q hq => (h q hq).ne', Nat.add_zero]

theorem ids_bound {c : Nat} {X : List Posting}
    (h : ∀ q ∈ X, c < q.document_id) : ∀ d ∈ ids X, c < d := by
  intro d hd
  obtain ⟨q, hq, rfl⟩ := List.mem_map.mp hd
  exact h q hq

theorem union_elem_lt {c : Nat} {X Y : List Posting} {p : Posting}
    (hp : p ∈ union X Y)
    (hX : ∀ d ∈ ids X, c < d) (hY : ∀ d ∈ ids Y, c < d) :
    c < p.document_id := by
  rcases union_elem_ids hp with h | h
  · exact hX _ h
  · exact hY _ h

theorem union_tf (A B : List Posting) (hA : SortedIds A) (hB : SortedIds B) :
    ∀ p ∈ union A B, p.term_frequency
      = tfOf A p.document_id + tfOf B p.document_id := by
  revert hA hB
  induction A, B using union.induct with
  | case1 as =>
    intro hA _ p hp
    rw [union_nil] at hp
    rw [tfOf_self hA hp]
    simp [tfOf]
  | case2 b bs =>
    intro _ hB p hp
    rw [nil_union] at hp
    rw [tfOf_self hB hp]
    simp [tfOf]
  | case3 a as b bs hlt ih =>
    intro hA hB
    obtain ⟨haA, hA'⟩ := List.pairwise_cons.mp hA
    obtain ⟨hbB, hB'⟩ := List.pairwise_cons.mp hB
    simp only [union, if_pos hlt]
    intro p hp
    rcases List.mem_cons.mp hp with rfl | hp'
    · rw [tfOf_cons_self haA]
      rw [tfOf_eq_zero (l := b :: bs) fun q hq => by
        rcases List.mem_cons.mp hq with rfl | hq'
        · exact hlt.ne'
        · have := hbB q hq'
          omega]
      omega
    · have hgt : a.document_id < p.document_id :=
        union_elem_lt hp' (ids_bound haA)
          (fun d hd => lt_of_lt_of_le hlt (sorted_head_lt hB hd))
      rw [tfOf_cons_ne hgt.ne, ih hA' hB p hp']
  | case4 a as b bs hnlt hlt ih =>
    intro hA hB
    obtain ⟨haA, hA'⟩ := List.pairwise_cons.mp hA
    obtain ⟨hbB, hB'⟩ := List.pairwise_cons.mp hB
    simp only [union, if_neg hnlt, if_pos hlt]
    intro p hp
    rcases List.mem_cons.mp hp with rfl | hp'
    · rw [tfOf_cons_self hbB]
      rw [tfOf_eq_zero (l := a :: as) fun q hq => by
        rcases List.mem_cons.mp hq with rfl | hq'
        · exact hlt.ne'
        · have := haA q hq'
          omega]
      omega
    · have hgt : b.document_id < p.document_id :=
        union_elem_lt hp'
          (fun d hd => lt_of_lt_of_le hlt (sorted_head_lt hA hd))
          (ids_bound hbB)
      rw [tfOf_cons_ne (l := bs) hgt.ne, ih hA hB' p hp']
  | case5 a as b bs hnlt hnlt' ih =>
    intro hA hB
    obtain ⟨haA, hA'⟩ := List.pairwise_cons.mp hA
    obtain ⟨hbB, hB'⟩ := List.pairwise_cons.mp hB
    have heq : a.document_id = b.document_id := by omega
    simp only [union, if_neg hnlt, if_neg hnlt']
    intro p hp
    rcases List.mem_cons.mp hp with rfl | hp'
    · show a.term_frequency + b.term_frequency
        = tfOf (a :: as) a.document_id + tfOf (b :: bs) a.document_id
      rw [tfOf_cons_self haA, heq, tfOf_cons_self hbB]
    · have hgta : a.document_id < p.document_id :=
        union_elem_lt hp' (ids_bound haA) (ids_bound fun q hq => heq ▸ hbB q hq)
      rw [tfOf_cons_ne hgta.ne, tfOf_cons_ne (by omega : b.document_id ≠ p.document_id),
        ih hA' hB' p hp']

theorem union_mem_left (A B : List Posting) :
    ∀ p ∈ union A B, p.document_id ∉ ids B → p ∈ A := by
  induction A, B using union.induct with
  | case1 as =>
    intro p hp _
    rwa [union_nil] at hp
  | case2 b bs =>
    intro p hp hnb
    rw [nil_union] at hp
    exact absurd (List.mem_map_of_mem _ hp) hnb
  | case3 a as b bs hlt ih =>
    simp only [union, if_pos hlt]
    intro p hp hnb
    rcases List.mem_cons.mp hp with rfl | hp'
    · exact List.mem_cons_self p as
    · exact List.mem_cons_of_mem a (ih p hp' hnb)
  | case4 a as b bs hnlt hlt ih =>
    simp only [union, if_neg hnlt, if_pos hlt]
    intro p hp hnb
    rcases List.mem_cons.mp hp with rfl | hp'
    · exact absurd (by simp [ids_cons]) hnb
    · exact ih p hp' fun h => hnb (by simp [ids_cons, h])
  | case5 a as b bs hnlt hnlt' ih =>
    simp only [union, if_neg hnlt, if_neg hnlt']
    intro p hp hnb
    rcases List.mem_cons.mp hp with rfl | hp'
    · exact absurd (by simp [ids_cons]; omega) hnb
    · exact List.mem_cons_of_mem a (ih p hp' fun h => hnb (by simp [ids_cons, h]))

theorem union_mem_right (A B : List Posting) :
    ∀ p ∈ union A B, p.document_id ∉ ids A → p ∈ B := by
  induction A, B using union.induct with
  | case1 as =>
    intro p hp hna
    rw [union_nil] at hp
    exact absurd (List.mem_map_of_mem _ hp) hna
  | case2 b bs =>
    intro p hp _
    rwa [nil_union] at hp
  | case3 a as b bs hlt ih =>
    simp only [union, if_pos hlt]
    intro p hp hna
    rcases List.mem_cons.mp hp with rfl | hp'
    · exact absurd (by simp [ids_cons]) hna
    · exact ih p hp' fun h => hna (by simp [ids_cons, h])
  | case4 a as b bs hnlt hlt ih =>
    simp only [union, if_neg hnlt, if_pos hlt]
    intro p hp hna
    rcases List.mem_cons.mp hp with rfl | hp'
    · exact List.mem_cons_self p bs
    · exact List.mem_cons_of_mem b (ih p hp' hna)
  | case5 a as b bs hnlt hnlt' ih =>
    simp only [union, if_neg hnlt, if_neg hnlt']
    intro p hp hna
    rcases List.mem_cons.mp hp with rfl | hp'
    · exact absurd (by simp [ids_cons]) hna
    · exact List.mem_cons_of_mem b (ih p hp' fun h => hna (by simp [ids_cons, h]))

theorem intersection_eq (A B : List Posting) (hA : SortedIds A) (hB : SortedIds B) :
    intersection A B = (A.filter fun p => decide (p.document_id ∈ ids B)).map
      (fun p => ⟨p.document_id, p.term_frequency + tfOf B p.document_id⟩) := by
  revert hA hB
  induction A, B using intersection.induct with
  | case1 as => simp [intersection, ids]
  | case2 b bs => simp [intersection]
  | case3 a as b bs heq ih =>
    intro hA hB
    obtain ⟨haA, hA'⟩ := List.pairwise_cons.mp hA
    obtain ⟨hbB, hB'⟩ := List.pairwise_cons.mp hB
    simp only [intersection, if_pos heq]
    rw [List.filter_cons_of_pos (by simp [ids_cons, heq])]
    rw [List.map_cons]
    have htail0 : tfOf bs a.document_id = 0 :=
      tfOf_eq_zero fun q hq => by have := hbB q hq; omega
    have hhead : tfOf (b :: bs) a.document_id = b.term_frequency := by
      simp only [tfOf]
      rw [if_pos heq.symm, htail0, Nat.add_zero]
    rw [hhead]
    have hfilter : as.filter (fun p => decide (p.document_id ∈ ids (b :: bs)))
        = as.filter (fun p => decide (p.document_id ∈ ids bs)) := by
      refine List.filter_congr fun p hp => ?_
      have hgt : b.document_id < p.document_id := heq ▸ haA p hp
      simp [ids_cons, hgt.ne']
    have hmapc : ∀ p ∈ as.filter (fun p => decide (p.document_id ∈ ids bs)),
        (⟨p.document_id, p.term_frequency + tfOf (b :: bs) p.document_id⟩ : Posting)
          = ⟨p.document_id, p.term_frequency + tfOf bs p.document_id⟩ := by
      intro p hp
      have hgt : b.document_id < p.document_id := heq ▸ haA p (List.mem_of_mem_filter hp)
      have hne2 : b.document_id ≠ p.document_id := hgt.ne
      simp [tfOf, hne2]
    rw [hfilter, List.map_congr_left hmapc, ih hA' hB']
  | case4 a as b bs hne hlt ih =>
    intro hA hB
    obtain ⟨haA, hA'⟩ := List.pairwise_cons.mp hA
    simp only [intersection, if_neg hne, if_pos hlt]
    rw [List.filter_cons_of_neg (by
      simp only [decide_eq_true_eq]
      intro hmem
      exact absurd (sorted_head_lt hB hmem) (by omega))]
    exact ih hA' hB
  | case5 a as b bs hne hnlt ih =>
    intro hA hB
    obtain ⟨hbB, hB'⟩ := List.pairwise_cons.mp hB
    have hgt : b.document_id < a.document_id := by omega
    simp only [intersection, if_neg hne, if_neg hnlt]
    rw [ih hA hB']
    have hfilter : (a :: as).filter (fun p => decide (p.document_id ∈ ids (b :: bs)))
        = (a :: as).filter (fun p => decide (p.document_id ∈ ids bs)) := by
      refine List.filter_congr fun p hp => ?_
      have hgtp : b.document_id < p.document_id := by
        rcases List.mem_cons.mp hp with rfl | hp'
        · exact hgt
        · exact hgt.trans ((List.pairwise_cons.mp hA).1 p hp')
      simp [ids_cons, hgtp.ne']
    have hmapc : ∀ p ∈ (a :: as).filter (fun p => decide (p.document_id ∈ ids bs)),
        (⟨p.document_id, p.term_frequency + tfOf (b :: bs) p.document_id⟩ : Posting)
          = ⟨p.document_id, p.term_frequency + tfOf bs p.document_id⟩ := by
      intro p hp
      have hgtp : b.document_id < p.document_id := by
        rcases List.mem_cons.mp (List.mem_of_mem_filter hp) with rfl | hp'
        · exact hgt
        · exact hgt.trans ((List.pairwise_cons.mp hA).1 p hp')
      have hne2 : b.document_id ≠ p.document_id := hgtp.ne
      simp [tfOf, hne2]
    rw [hfilter, List.map_congr_left hmapc]

theorem map_did_filter (A : List Posting) (pred : Nat → Bool) :
    ((A.filter fun p => pred p.document_id).map (·.document_id))
      = (ids A).filter pred := by
  induction A with
  | nil => rfl
  | cons a as ih =>
    by_cases h : pred a.document_id
    · simp only [List.filter_cons, h, if_true, List.map_cons, ids_cons, ih]
    · simp only [List.filter_cons, h, if_false, ids_cons, ih, Bool.false_eq_true]

instance (l : List Posting) : Decidable (SortedIds l) := by
  unfold SortedIds
  infer_instance

theorem intersectionSt_fst (A B : List Posting) :
    (intersectionSt A B).1 = intersection A B := by
  induction A, B using intersectionSt.induct with
  | case1 as => simp [intersectionSt, intersection]
  | case2 b bs => simp [intersectionSt, intersection]
  | case3 a as b bs heq ih =>
    simp only [intersectionSt, intersection, if_pos heq]
    rw [← ih]
  | case4 a as b bs hne hlt ih =>
    simp only [intersectionSt, intersection, if_neg hne, if_pos hlt]
    rw [← ih]
  | case5 a as b bs hne hnlt ih =>
    simp only [intersectionSt, intersection, if_neg hne, if_neg hnlt]
    rw [← ih]

theorem unionSt_fst (A B : List Posting) :
    (unionSt A B).1 = union A B := by
  induction A, B using unionSt.induct with
  | case1 as => simp [unionSt, union]
  | case2 b bs => simp [unionSt, union]
  | case3 a as b bs hlt ih =>
    simp only [unionSt, union, if_pos hlt]
    rw [← ih]
  | case4 a as b bs hnlt hlt ih =>
    simp only [unionSt, union, if_neg hnlt, if_pos hlt]
    rw [← ih]
  | case5 a as b bs hnlt hnlt' ih =>
    simp only [unionSt, union, if_neg hnlt, if_neg hnlt']
    rw [← ih]

/-! ## Claims -/

/-- C1: the spec's threshold scenario t1={doc1:2, doc3:1}, t2={doc2:5,
doc3:2}, t3={doc3:1, doc4:4}, M=3 demands that with N=2 exactly doc3
qualifies and with N=1 docs 1-4 all qualify.  The code disagrees: its
qualification test compares a `(document_id, count)` tuple with an int and
never fires, so `evaluate` terminates with an empty result stream in both
runs (N=2 via T=2/3, N=1 via T=2/5), returning no document at all. -/
theorem claim_C1_threshold_scenario :
    evaluate [[⟨1, 2⟩, ⟨3, 1⟩], [⟨2, 5⟩, ⟨3, 2⟩], [⟨3, 1⟩, ⟨4, 4⟩]] (2/3) 10
      = .ok [] ∧
    evaluate [[⟨1, 2⟩, ⟨3, 1⟩], [⟨2, 5⟩, ⟨3, 2⟩], [⟨3, 1⟩, ⟨4, 4⟩]] (2/5) 10
      = .ok [] := by
  constructor
  · rw [evaluate_eq]
    rw [show pyInt ((([[⟨1, 2⟩, ⟨3, 1⟩], [⟨2, 5⟩, ⟨3, 2⟩], [⟨3, 1⟩, ⟨4, 4⟩]]
        : List (List Posting)).length : Rat) * (2/3)) = 2 by norm_num [pyInt]]
    rw [show ([[⟨1, 2⟩, ⟨3, 1⟩], [⟨2, 5⟩, ⟨3, 2⟩], [⟨3, 1⟩, ⟨4, 4⟩]]
        : List (List Posting)).map List.tail = [[⟨3, 1⟩], [⟨3, 2⟩], [⟨4, 4⟩]]
      from rfl]
    rw [show ([[⟨1, 2⟩, ⟨3, 1⟩], [⟨2, 5⟩, ⟨3, 2⟩], [⟨3, 1⟩, ⟨4, 4⟩]]
        : List (List Posting)).filterMap List.head? = [⟨1, 2⟩, ⟨2, 5⟩, ⟨3, 1⟩]
      from rfl]
    rw [loopEx_sound 12 _ _ _ (.ok ()) (by decide)]
  · rw [evaluate_eq]
    rw [show pyInt ((([[⟨1, 2⟩, ⟨3, 1⟩], [⟨2, 5⟩, ⟨3, 2⟩], [⟨3, 1⟩, ⟨4, 4⟩]]
        : List (List Posting)).length : Rat) * (2/5)) = 1 by norm_num [pyInt]]
    rw [show ([[⟨1, 2⟩, ⟨3, 1⟩], [⟨2, 5⟩, ⟨3, 2⟩], [⟨3, 1⟩, ⟨4, 4⟩]]
        : List (List Posting)).map List.tail = [[⟨3, 1⟩], [⟨3, 2⟩], [⟨4, 4⟩]]
      from rfl]
    rw [show ([[⟨1, 2⟩, ⟨3, 1⟩], [⟨2, 5⟩, ⟨3, 2⟩], [⟨3, 1⟩, ⟨4, 4⟩]]
        : List (List Posting)).filterMap List.head? = [⟨1, 2⟩, ⟨2, 5⟩, ⟨3, 1⟩]
      from rfl]
    rw [loopEx_sound 12 _ _ _ (.ok ()) (by decide)]

/-- C2: for inputs sorted strictly increasing by document id (hence
id-deduplicated), `intersection` yields exactly one posting per id present in
both id sets — A's postings filtered to B's ids — each carrying the sum of
the two contributing frequencies, and nothing else. -/
theorem claim_C2_intersection_spec (A B : List Posting)
    (hA : SortedIds A) (hB : SortedIds B) :
    intersection A B
      = (A.filter fun p => decide (p.document_id ∈ ids B)).map
          (fun p => ⟨p.document_id, p.term_frequency + tfOf B p.document_id⟩) ∧
    ids (intersection A B) = (ids A).filter (fun d => decide (d ∈ ids B)) ∧
    ∀ p ∈ intersection A B,
      p.term_frequency = tfOf A p.document_id + tfOf B p.document_id := by
  refine ⟨intersection_eq A B hA hB, ?_, ?_⟩
  · calc ids (intersection A B)
        = (A.filter fun p => decide (p.document_id ∈ ids B)).map
            (·.document_id) := by
          rw [intersection_eq A B hA hB, ids, List.map_map]
          rfl
      _ = (ids A).filter (fun d => decide (d ∈ ids B)) :=
          map_did_filter A fun d => decide (d ∈ ids B)
  · intro p hp
    rw [intersection_eq A B hA hB] at hp
    obtain ⟨q, hq, rfl⟩ := List.mem_map.mp hp
    have hqA : q ∈ A := List.mem_of_mem_filter hq
    show q.term_frequency + tfOf B q.document_id
      = tfOf A q.document_id + tfOf B q.document_id
    rw [tfOf_self hA hqA]

theorem claim_C2_witness :
    SortedIds [⟨1, 2⟩, ⟨3, 1⟩] ∧ SortedIds [⟨2, 5⟩, ⟨3, 2⟩] ∧
    ids (intersection [⟨1, 2⟩, ⟨3, 1⟩] [⟨2, 5⟩, ⟨3, 2⟩])
      = (ids [⟨1, 2⟩, ⟨3, 1⟩]).filter
          (fun d => decide (d ∈ ids [⟨2, 5⟩, ⟨3, 2⟩])) :=
  ⟨by decide, by decide,
    (claim_C2_intersection_spec _ _ (by decide) (by decide)).2.1⟩

/-- C3: for sorted, id-deduplicated inputs, `union` yields one posting per id
of either side in strictly ascending id order; a posting whose id is unique
to one side passes through unchanged (it is an original input posting), ids
on both sides get the summed frequency, and an empty side makes the other
pass through verbatim. -/
theorem claim_C3_union_spec (A B : List Posting)
    (hA : SortedIds A) (hB : SortedIds B) :
    SortedIds (union A B) ∧
    (∀ d, d ∈ ids (union A B) ↔ d ∈ ids A ∨ d ∈ ids B) ∧
    (∀ p ∈ union A B,
      p.term_frequency = tfOf A p.document_id + tfOf B p.document_id) ∧
    (∀ p ∈ union A B, p.document_id ∉ ids B → p ∈ A) ∧
    (∀ p ∈ union A B, p.document_id ∉ ids A → p ∈ B) ∧
    union A [] = A ∧ union [] B = B :=
  ⟨union_sorted A B hA hB, union_mem_ids A B, union_tf A B hA hB,
    union_mem_left A B, union_mem_right A B, union_nil A, nil_union B⟩

theorem claim_C3_witness :
    SortedIds [⟨1, 2⟩, ⟨3, 1⟩] ∧ SortedIds [⟨2, 5⟩, ⟨3, 2⟩] ∧
    SortedIds (union [⟨1, 2⟩, ⟨3, 1⟩] [⟨2, 5⟩, ⟨3, 2⟩]) ∧
    union ([⟨1, 2⟩, ⟨3, 1⟩] : List Posting) [] = [⟨1, 2⟩, ⟨3, 1⟩] :=
  ⟨by decide, by decide,
    (claim_C3_union_spec _ _ (by decide) (by decide)).1,
    (claim_C3_union_spec [⟨1, 2⟩, ⟨3, 1⟩] [⟨2, 5⟩, ⟨3, 2⟩] (by decide)
      (by decide)).2.2.2.2.2.1⟩

/-- C4: the claim says `difference(A, B)` completes normally on every sorted,
id-deduplicated pair.  It does not: when the last posting of B matches a
posting of A, the unguarded `next(iter2)` on line 161 raises `StopIteration`
inside the generator, which Python converts to `RuntimeError` (PEP 479).
Here the minimal failing input. -/
theorem claim_C4_difference_raises :
    difference [⟨1, 7⟩] [⟨1, 7⟩] = .error .runtimeError := by
  simp [difference, diffRun]

/-- C5: of the four identity laws, three hold at the concrete sorted input
A = [⟨2, 3⟩]: `intersection A A` doubles the frequency on A's id, `union A
empty = A`, and `difference A empty = A`.  The fourth fails: `difference A A`
does not produce the empty sequence but raises (RuntimeError via PEP 479),
because the matching head is B's last posting. -/
theorem claim_C5_identity_laws :
    intersection [⟨2, 3⟩] [⟨2, 3⟩] = [⟨2, 6⟩] ∧
    union [⟨2, 3⟩] [] = [⟨2, 3⟩] ∧
    difference [⟨2, 3⟩] [] = .ok [⟨2, 3⟩] ∧
    difference [⟨2, 3⟩] [⟨2, 3⟩] = .error .runtimeError :=
  ⟨by simp [intersection], by simp [union], rfl, by simp [difference, diffRun]⟩

/-- C6: the claim says an empty unique-term set (M = 0) yields an empty
result stream for any options.  The code instead raises: with no terms,
`match_count = int(0 * T) = 0`, the loop guard `len([]) >= 0` holds, and
`Counter(...).most_common(1)[0]` on the empty postings list raises
`IndexError`, for every threshold and hit count. -/
theorem claim_C6_empty_query (T : Rat) (K : Int) :
    evaluate [] T K = .error .indexError := by
  rw [evaluate_eq]
  simp only [List.map_nil, List.filterMap_nil, List.length_nil, Nat.cast_zero,
    zero_mul]
  rw [show pyInt 0 = 0 by simp [pyInt]]
  rw [loop_empty _ _ (by norm_num)]

/-- C7 counterexample: with `match_threshold = 2` (outside [0, 1]) and
`hit_count = -1` (not positive), the claim demands a reported failure before
any posting sequence is touched.  Instead `evaluate` silently proceeds — it
pulls the head of every posting sequence, computes `match_count = int(2*2) =
4`, finds only 2 live cursors, and terminates normally with an empty result
and no error of any kind. -/
theorem claim_C7_counterexample :
    evaluate [[⟨1, 2⟩], [⟨2, 1⟩]] 2 (-1) = .ok [] := by
  rw [evaluate_eq]
  rw [show pyInt ((([[⟨1, 2⟩], [⟨2, 1⟩]] : List (List Posting)).length : Rat)
      * 2) = 4 by norm_num [pyInt]]
  rw [show ([[⟨1, 2⟩], [⟨2, 1⟩]] : List (List Posting)).map List.tail
      = [[], []] from rfl]
  rw [show ([[⟨1, 2⟩], [⟨2, 1⟩]] : List (List Posting)).filterMap List.head?
      = [⟨1, 2⟩, ⟨2, 1⟩] from rfl]
  rw [loop_exit _ _ _ (by norm_num)]

/-- C7 amended: `evaluate` performs no validation of `match_threshold` or
`hit_count` whatsoever.  The outcome is independent of `hit_count`, and
depends on `match_threshold` only through `match_count = int(M * T)`: any two
option settings with the same `match_count` — valid or not — produce
identical behaviour. -/
theorem claim_C7_no_validation (tl : List (List Posting)) (T T' : Rat)
    (K K' : Int)
    (h : pyInt ((tl.length : Rat) * T) = pyInt ((tl.length : Rat) * T')) :
    evaluate tl T K = evaluate tl T' K' := by
  rw [evaluate_eq, evaluate_eq, h]

theorem claim_C7_witness :
    pyInt ((([[⟨1, 2⟩]] : List (List Posting)).length : Rat) * 2)
      = pyInt ((([[⟨1, 2⟩]] : List (List Posting)).length : Rat) * 2) ∧
    evaluate [[⟨1, 2⟩]] 2 (-1) = evaluate [[⟨1, 2⟩]] 2 7 :=
  ⟨rfl, claim_C7_no_validation [[⟨1, 2⟩]] 2 2 (-1) 7 rfl⟩

/-- Inserting an element that has already occurred earlier does not change
first-occurrence deduplication. -/
theorem dedupKeepFirst_middle [DecidableEq α] (seen l1 l2 : List α) (t : α)
    (h : t ∈ l1 ∨ t ∈ seen) :
    dedupKeepFirst seen (l1 ++ t :: l2) = dedupKeepFirst seen (l1 ++ l2) := by
  induction l1 generalizing seen with
  | nil =>
    rcases h with h | h
    · cases h
    · simp [dedupKeepFirst, h]
  | cons u l1' ih =>
    by_cases hu : u ∈ seen
    · simp only [List.cons_append, dedupKeepFirst, if_pos hu]
      apply ih
      rcases h with h | h
      · rcases List.mem_cons.mp h with rfl | h'
        · exact Or.inr hu
        · exact Or.inl h'
      · exact Or.inr h
    · simp only [List.cons_append, dedupKeepFirst, if_neg hu]
      congr 1
      apply ih
      rcases h with h | h
      · rcases List.mem_cons.mp h with rfl | h'
        · exact Or.inr (List.mem_cons_self _ _)
        · exact Or.inl h'
      · exact Or.inr (List.mem_cons_of_mem _ h)

/-- C8: with the spec-modelled `get_terms` supplying the unique terms of the
query, the match count computed on lines 53-54 equals `⌊T * M⌋` for every
ratio `T ∈ [0, 1]` (Python's `int()` truncates toward zero, which is floor on
the non-negative product), and a duplicate occurrence of a term changes
neither the unique term list nor the match count. -/
theorem claim_C8_match_count (tokens : List String) (T : Rat)
    (h0 : 0 ≤ T) (h1 : T ≤ 1) :
    matchCountOf tokens T = ⌊T * ((uniqueTerms tokens).length : Rat)⌋ ∧
    ∀ l1 l2 t, tokens = l1 ++ t :: l2 → t ∈ l1 →
      uniqueTerms (l1 ++ l2) = uniqueTerms tokens ∧
      matchCountOf (l1 ++ l2) T = matchCountOf tokens T := by
  have hfloor : matchCountOf tokens T
      = ⌊T * ((uniqueTerms tokens).length : Rat)⌋ := by
    rw [matchCountOf, pyInt,
      if_pos (mul_nonneg (Nat.cast_nonneg _) h0), mul_comm]
  refine ⟨hfloor, ?_⟩
  rintro l1 l2 t rfl ht
  have hdedup : uniqueTerms (l1 ++ l2) = uniqueTerms (l1 ++ t :: l2) :=
    (dedupKeepFirst_middle [] l1 l2 t (Or.inl ht)).symm
  exact ⟨hdedup, by rw [matchCountOf, matchCountOf, hdedup]⟩

theorem claim_C8_witness :
    (0 : Rat) ≤ 1/2 ∧ (1/2 : Rat) ≤ 1 ∧
    matchCountOf ["a", "b", "a"] (1/2)
      = ⌊(1/2 : Rat) * ((uniqueTerms ["a", "b", "a"]).length : Rat)⌋ ∧
    uniqueTerms (["a", "b"] ++ []) = uniqueTerms ["a", "b", "a"] :=
  ⟨by norm_num, by norm_num,
    (claim_C8_match_count ["a", "b", "a"] (1/2) (by norm_num) (by norm_num)).1,
    ((claim_C8_match_count ["a", "b", "a"] (1/2) (by norm_num)
        (by norm_num)).2 ["a", "b"] [] "a" rfl (by simp)).1⟩

/-- C9 counterexample: the claim says merging "never modifies the
term_frequency fields of the postings it consumed".  Running the intersection
of A = [⟨1, 2⟩] with B = [⟨1, 5⟩] leaves A's posting object holding frequency
7, not its original 2: the source executed `a.term_frequency +=
b.term_frequency` on it before yielding it. -/
theorem claim_C9_counterexample :
    (intersectionSt [⟨1, 2⟩] [⟨1, 5⟩]).2 = [⟨1, 7⟩] ∧
    ([⟨1, 7⟩] : List Posting) ≠ [⟨1, 2⟩] :=
  ⟨by simp [intersectionSt], by decide⟩

/-- C9 amended: on equal head ids both merges yield a posting carrying the
summed term frequency, but not a fresh posting: the posting consumed from the
first input is mutated in place (`a.term_frequency += b.term_frequency`) and
yielded, so after the step the first input's consumed posting itself stores
the sum.  (The second input's postings are never written to; the `+=` is the
only field write in postingsmerger.py.) -/
theorem claim_C9_mutation (a b : Posting) (as bs : List Posting)
    (h : a.document_id = b.document_id) :
    (intersectionSt (a :: as) (b :: bs)).1.head?
      = some ⟨a.document_id, a.term_frequency + b.term_frequency⟩ ∧
    (intersectionSt (a :: as) (b :: bs)).2.head?
      = some ⟨a.document_id, a.term_frequency + b.term_frequency⟩ ∧
    (unionSt (a :: as) (b :: bs)).1.head?
      = some ⟨a.document_id, a.term_frequency + b.term_frequency⟩ ∧
    (unionSt (a :: as) (b :: bs)).2.head?
      = some ⟨a.document_id, a.term_frequency + b.term_frequency⟩ := by
  have hnlt : ¬ a.document_id < b.document_id := by omega
  have hnlt' : ¬ b.document_id < a.document_id := by omega
  refine ⟨?_, ?_, ?_, ?_⟩ <;> simp [intersectionSt, unionSt, h, hnlt, hnlt']

theorem claim_C9_witness :
    (intersectionSt [⟨1, 2⟩] [⟨1, 5⟩]).1.head? = some ⟨1, 7⟩ ∧
    (intersectionSt [⟨1, 2⟩] [⟨1, 5⟩]).2.head? = some ⟨1, 7⟩ ∧
    (unionSt [⟨1, 2⟩] [⟨1, 5⟩]).1.head? = some ⟨1, 7⟩ ∧
    (unionSt [⟨1, 2⟩] [⟨1, 5⟩]).2.head? = some ⟨1, 7⟩ :=
  claim_C9_mutation ⟨1, 2⟩ ⟨1, 5⟩ [] [] rfl

/-- C10: the qualification test (`most_common == match_count`, a tuple
compared with an int) never holds, so no reachable statement ever resets or
updates the Ranker or offers a candidate to the Sieve, and every normally
terminating `evaluate` yields the empty result stream. -/
theorem claim_C10_never_qualifies :
    (∀ u : Nat × Nat, ∀ n : Int, pyEqPairInt u n = false) ∧
    ∀ (tl : List (List Posting)) (T : Rat) (K : Int) (res : List SearchHit),
      evaluate tl T K = .ok res → res = [] := by
  refine ⟨fun _ _ => rfl, ?_⟩
  intro tl T K res h
  rw [evaluate_eq] at h
  rcases hl : loop (tl.map List.tail) (tl.filterMap List.head?)
      (pyInt ((tl.length : Rat) * T)) with e | u
  · rw [hl] at h
    simp at h
  · cases u
    rw [hl] at h
    injection h with h2
    exact h2.symm

theorem claim_C10_witness :
    evaluate [[⟨1, 2⟩]] 1 5 = .ok [] ∧ ([] : List SearchHit) = [] := by
  have h : evaluate [[⟨1, 2⟩]] 1 5 = .ok [] := by
    rw [evaluate_eq]
    rw [show pyInt ((([[⟨1, 2⟩]] : List (List Posting)).length : Rat) * 1) = 1
      by norm_num [pyInt]]
    rw [loopEx_sound 3 ([[⟨1, 2⟩]].map List.tail)
      ([[⟨1, 2⟩]].filterMap List.head?) 1 (.ok ()) (by decide)]
  exact ⟨h, claim_C10_never_qualifies.2 [[⟨1, 2⟩]] 1 5 [] h⟩
